import Mathlib

/-! Verification of the winimpsym symbol cross-reference engine.

This file gives a shallow embedding of the core of `winimpsym.go`: the
symbol interest classifier, the symbol-table admission logic (`readSymtab`),
the relocation-to-reference binding (`readRelocations`), the discovery
passes (`pass1`, `pass2`), and the sidecar path recovery (`pathinfo`).

Modelling conventions:
  * Go strings are byte arrays of ASCII symbol names here; they are modelled
    as `String` with all operations (`strings.HasPrefix`, slicing) defined
    through the underlying character list, mirroring byte-level slicing.
  * Go maps (`map[string]T`) are modelled as association lists with
    `mapGet` / `mapSet`; absent keys read as Go zero values where the source
    relies on that (the disposition mask map).
  * The textual decoding of llvm-objdump output lines by regular expressions
    is not modelled; the embedding starts from the decoded records
    (symbol-table rows and relocation rows), which is the level at which the
    cross-reference model operates.  The section table (`readSections`,
    `sects`, `secmap`) is omitted: no claim concerns it and it feeds nothing
    in the functions modelled here.
  * Fatal conditions (Go `return fmt.Errorf(...)` propagated to `fatal`, and
    the duplicate-definition `panic`) are modelled with `Except String`:
    an `.error` result carries no state, matching the fact that the Go
    process aborts without performing any further model mutation.
-/

/-- A character-list prefix test (`strings.HasPrefix` on ASCII data). -/
def listIsPref : List Char → List Char → Bool
  | [], _ => true
  | _ :: _, [] => false
  | a :: as, b :: bs => decide (a = b) && listIsPref as bs

/-- Go `strings.HasPrefix s pre`. -/
def strStartsWith (s pre : String) : Bool :=
  listIsPref pre.data s.data

/-- Go `strings.HasSuffix s suf`. -/
def strEndsWith (s suf : String) : Bool :=
  listIsPref suf.data.reverse s.data.reverse

/-- Go string slicing `s[n:]` (ASCII, so bytes = chars). -/
def strDrop (s : String) (n : Nat) : String :=
  ⟨s.data.drop n⟩

/-- Go string slicing `s[:len(s)-1]`. -/
def strDropLast (s : String) : String :=
  ⟨s.data.dropLast⟩

/-- `const imppref = "__imp_"` from the source. -/
def imppref : String := "__imp_"

/-- Go `k[len(imppref):]`: strip the import prefix. -/
def stripImp (s : String) : String :=
  strDrop s imppref.length

/-- Set-semantics insertion for a Go `map[string]bool` used as a set
(`m[k] = true`). -/
def listInsert (l : List String) (x : String) : List String :=
  if x ∈ l then l else l ++ [x]

/-- Association-list lookup, modelling Go map read `v, ok := m[k]`. -/
def mapGet {α : Type} : List (String × α) → String → Option α
  | [], _ => none
  | (k', v) :: rest, k => if k' = k then some v else mapGet rest k

/-- Association-list update, modelling Go map write `m[k] = v`. -/
def mapSet {α : Type} : List (String × α) → String → α → List (String × α)
  | [], k, v => [(k, v)]
  | (k', v') :: rest, k, v =>
      if k' = k then (k, v) :: rest else (k', v') :: mapSet rest k v

/-- The `defrefmask` bit constants from the source (`1 << iota` with
`defbase = 1 << 1`). -/
def defbase : Nat := 2
def refbase : Nat := 4
def defimp : Nat := 8
def refimp : Nat := 16
def dsameobj : Nat := 32

/-- Decoded symbol-table row: section index (signed decimal), value, name
(`secidx`, `value`, `sname` of `readSymtab`). -/
structure SymRow where
  secidx : Int
  value : Nat
  name : String
deriving DecidableEq, Repr

/-- Decoded relocation row: hex offset and the symbol named (`soff`/`sval`
of `readRelocations`; the relocation type field is parsed but unused in the
source). -/
structure RelocRow where
  off : Nat
  sval : String
deriving DecidableEq, Repr

/-- `definfo` from the source. -/
structure DefInfo where
  objidx : Nat
  secidx : Int
  value : Nat
deriving DecidableEq, Repr

/-- `refinfo` from the source (`def` is a Lean keyword, renamed `isdef`). -/
structure RefInfo where
  objidx : Nat
  secidx : Int
  offsets : List Nat
  isdef : Bool
deriving DecidableEq, Repr

/-- The process-wide configuration: `-all` flag and the seeded watch set. -/
structure Config where
  allsyms : Bool
  watched : List String
deriving DecidableEq, Repr

/-- The mutable fields of `state` that the modelled operations touch:
`defs`, `refs`, `all`, `defref`.  (`objs`, `paths`, `sects`, `secmap`,
`scanner` feed only the renderer / decoder, which are not modelled;
`objidx` is threaded explicitly as `cur`.) -/
structure State where
  defs : List (String × DefInfo)
  refs : List (String × List RefInfo)
  all : List String
  defref : List (String × Nat)
deriving DecidableEq, Repr

/-- Read `s.refs[sname]` defaulting to the empty slice. -/
def refsGet (st : State) (n : String) : List RefInfo :=
  (mapGet st.refs n).getD []

/-- Read `s.defref[x]` with the Go zero-value default. -/
def defrefGet (st : State) (n : String) : Nat :=
  (mapGet st.defref n).getD 0

/-- `s.defref[x] = s.defref[x] | bit`. -/
def maskOr (st : State) (n : String) (bit : Nat) : State :=
  { st with defref := mapSet st.defref n (defrefGet st n ||| bit) }

/-- `maskAddDef` from the source. -/
def maskAddDef (st : State) (sname : String) : State :=
  if strStartsWith sname imppref then maskOr st (stripImp sname) defimp
  else maskOr st sname defbase

/-- `maskAddRef` from the source. -/
def maskAddRef (st : State) (sname : String) : State :=
  if strStartsWith sname imppref then maskOr st (stripImp sname) refimp
  else maskOr st sname refbase

/-- `isInterestingSym` from the source.  Note the literal `"__imp"` (five
characters, no trailing underscore) used by the source for the prefix
test, while `imppref` (`"__imp_"`) is the prefix used for stripping. -/
def isInterestingSym (cfg : Config) (all : List String) (sname : String) : Bool :=
  strStartsWith sname "__imp" || cfg.allsyms ||
    decide (sname ∈ cfg.watched) || decide (sname ∈ all)

/-- One symbol-table row of `readSymtab` (the body of the scan loop after
decoding): admission filter, definition handling with the duplicate check
(`panic("resolve collision here")`), reference append, disposition update.
`bd` accumulates the block-local `defs` set used for the co-location check. -/
def symtabRow (cfg : Config) (cur : Nat) (st : State) (bd : List String)
    (r : SymRow) : Except String (State × List String) :=
  if isInterestingSym cfg st.all r.name = false then .ok (st, bd)
  else if r.secidx ≠ 0 then
    if (mapGet st.defs r.name).isSome then .error "resolve collision here"
    else
      let st1 : State :=
        { st with defs := mapSet st.defs r.name ⟨cur, r.secidx, r.value⟩ }
      let st2 := maskAddDef st1 r.name
      let rl2 := refsGet st2 r.name ++ [⟨cur, r.secidx, [], true⟩]
      let st3 : State := { st2 with refs := mapSet st2.refs r.name rl2 }
      .ok (st3, bd ++ [r.name])
  else
    let rl1 := refsGet st r.name ++ [⟨cur, r.secidx, [], false⟩]
    let st1 : State := { st with refs := mapSet st.refs r.name rl1 }
    .ok (maskAddRef st1 r.name, bd)

/-- The row loop of `readSymtab`. -/
def symtabRows (cfg : Config) (cur : Nat) :
    List SymRow → State → List String → Except String (State × List String)
  | [], st, bd => .ok (st, bd)
  | r :: rs, st, bd =>
    match symtabRow cfg cur st bd r with
    | .error e => .error e
    | .ok (st', bd') => symtabRows cfg cur rs st' bd'

/-- The co-location loop at the end of `readSymtab`: for every import-form
name defined in this block whose base was also defined in this block, OR
`dsameobj` into the base's disposition. -/
def colocateGo (bd : List String) : List String → State → State
  | [], st => st
  | k :: ks, st =>
    colocateGo bd ks
      (if strStartsWith k imppref then
        (if stripImp k ∈ bd then maskOr st (stripImp k) dsameobj else st)
      else st)

def colocate (bd : List String) (st : State) : State :=
  colocateGo bd bd st

/-- `readSymtab` on the decoded rows of one object's symbol-table block. -/
def readSymtab (cfg : Config) (cur : Nat) (rows : List SymRow)
    (st : State) : Except String State :=
  match symtabRows cfg cur rows st [] with
  | .error e => .error e
  | .ok (st', bd) => .ok (colocate bd st')

/-- Append an offset to a reference entry
(`ri.offsets = append(ri.offsets, off)`). -/
def addOff (off : Nat) (r : RefInfo) : RefInfo :=
  { r with offsets := r.offsets ++ [off] }

def addOffs (offs : List Nat) (r : RefInfo) : RefInfo :=
  { r with offsets := r.offsets ++ offs }

/-- The backward walk of `readRelocations`, expressed on the reversed
reference list: append the offset to each leading entry belonging to the
current object, stop at the first entry of a different object; the Boolean
is the `found` flag. -/
def walkRev (cur : Nat) (off : Nat) : List RefInfo → List RefInfo × Bool
  | [] => ([], false)
  | ri :: rest =>
    if ri.objidx ≠ cur then (ri :: rest, false)
    else (addOff off ri :: (walkRev cur off rest).1, true)

/-- Bind one relocation offset into a symbol's reference list: the
"walk the ref list backwards, stopping when we hit end of obj" loop of
`readRelocations`.  `none` models the `could not find ref info` fatal
error. -/
def bindRelocation (cur : Nat) (off : Nat) (rl : List RefInfo) :
    Option (List RefInfo) :=
  if (walkRev cur off rl.reverse).2 then
    some ((walkRev cur off rl.reverse).1).reverse
  else none

/-- Bind a sequence of relocation offsets one after the other, as `m`
successive relocation rows naming the same symbol do. -/
def bindOffsets (cur : Nat) : List Nat → List RefInfo → Option (List RefInfo)
  | [], rl => some rl
  | o :: os, rl =>
    match bindRelocation cur o rl with
    | none => none
    | some rl' => bindOffsets cur os rl'

/-- One relocation row of `readRelocations`: admission filter, refs-map
lookup (`cannot find refs entry` fatal error when absent), backward-walk
binding. -/
def relocRow (cfg : Config) (cur : Nat) (st : State) (r : RelocRow) :
    Except String State :=
  if isInterestingSym cfg st.all r.sval = false then .ok st
  else
    match mapGet st.refs r.sval with
    | none => .error ("cannot find refs entry in " ++ r.sval)
    | some rl =>
      match bindRelocation cur r.off rl with
      | some rl' => .ok { st with refs := mapSet st.refs r.sval rl' }
      | none => .error ("could not find ref info for reloc " ++ r.sval)

/-- The row loop of `readRelocations` for one relocation block. -/
def relocRows (cfg : Config) (cur : Nat) :
    List RelocRow → State → Except String State
  | [], st => .ok st
  | r :: rs, st =>
    match relocRow cfg cur st r with
    | .error e => .error e
    | .ok st' => relocRows cfg cur rs st'

/-- All relocation blocks of one object, in input order. -/
def relocBlocks (cfg : Config) (cur : Nat) :
    List (List RelocRow) → State → Except String State
  | [], st => .ok st
  | b :: bs, st =>
    match relocRows cfg cur b st with
    | .error e => .error e
    | .ok st' => relocBlocks cfg cur bs st'

/-- One input object as seen by the model: its decoded symbol-table rows
and its relocation blocks (in the order `digest` encounters them:
symbol table first, then relocation blocks). -/
structure ObjFile where
  symtab : List SymRow
  relocs : List (List RelocRow)
deriving DecidableEq, Repr

/-- `pass3` on one object (minus section reading and path recovery, which
touch no modelled state). -/
def pass3obj (cfg : Config) (cur : Nat) (o : ObjFile) (st : State) :
    Except String State :=
  match readSymtab cfg cur o.symtab st with
  | .error e => .error e
  | .ok st1 => relocBlocks cfg cur o.relocs st1

/-- The pass-3 driver loop of `main`: objects in input order, `s.objidx = k`. -/
def pass3objs (cfg : Config) : Nat → List ObjFile → State → Except String State
  | _, [], st => .ok st
  | k, o :: os, st =>
    match pass3obj cfg k o st with
    | .error e => .error e
    | .ok st' => pass3objs cfg (k + 1) os st'

/-- The symbol-name loop of `pass1` for one object: insert every
interesting name into the interesting-symbol set (the interest test reads
the evolving set itself, as in the source). -/
def pass1names (cfg : Config) : List String → List String → List String
  | acc, [] => acc
  | acc, n :: ns =>
    pass1names cfg (if isInterestingSym cfg acc n then listInsert acc n else acc) ns

/-- `pass1` over all objects in input order, starting from the empty set. -/
def pass1go (cfg : Config) : List ObjFile → List String → List String
  | [], acc => acc
  | o :: os, acc => pass1go cfg os (pass1names cfg acc (o.symtab.map (·.name)))

def pass1 (cfg : Config) (objs : List ObjFile) : List String :=
  pass1go cfg objs []

/-- `pass2` from the source: fold over a snapshot of the keys, adding the
prefix-stripped base of every `imppref`-prefixed name. -/
def pass2go : List String → List String → List String
  | [], acc => acc
  | k :: ks, acc =>
    pass2go ks (if strStartsWith k imppref then listInsert acc (stripImp k) else acc)

def pass2 (all : List String) : List String :=
  pass2go all all

/-- Watch-set seeding from `main`: each configured name is entered both
bare and with the import prefix. -/
def mkWatched : List String → List String
  | [] => []
  | s :: ss => listInsert (listInsert (mkWatched ss) s) (imppref ++ s)

/-- The whole run of `main` on decoded inputs: pass 1 over every object,
pass 2 once, pass 3 over every object in input order. -/
def runAll (cfg : Config) (objs : List ObjFile) : Except String State :=
  pass3objs cfg 0 objs
    { defs := [], refs := [], all := pass2 (pass1 cfg objs), defref := [] }

/-- `strings.Split(content, "\n")` on character lists. -/
def splitNl : List Char → List (List Char)
  | [] => [[]]
  | c :: rest =>
    if c = '\n' then [] :: splitNl rest
    else
      match splitNl rest with
      | [] => [[c]]
      | l :: ls => (c :: l) :: ls

def splitLines (s : String) : List String :=
  (splitNl s.data).map (fun l => ⟨l⟩)

/-- The sidecar file name `infile[:len(infile)-1] + "txt"` built by
`pathinfo` (for `X.o` this is `X.txt`). -/
def sidecarName (infile : String) : String :=
  strDropLast infile ++ "txt"

/-- `pathinfo` from the source.  The filesystem is passed in as a partial
map from file name to content (`os.ReadFile` returning an error is
`none`). -/
def pathinfo (fs : String → Option String) (infile : String) : String :=
  if strEndsWith infile ".o" = false then ""
  else
    match fs (sidecarName infile) with
    | none => ""
    | some content =>
      match (splitLines content).find? (fun l => strStartsWith l "pn: ") with
      | some line => strDrop line 4
      | none => ""

/-! ## Pure mask recomputations and derived notions used by the theorems -/

/-- Disposition bit contributed by one symbol-table row to the base name
`n`. -/
def rowMask (cfg : Config) (all : List String) (r : SymRow) (n : String) : Nat :=
  if isInterestingSym cfg all r.name = false then 0
  else if (if strStartsWith r.name imppref then stripImp r.name else r.name) = n then
    (if r.secidx ≠ 0 then (if strStartsWith r.name imppref then defimp else defbase)
     else (if strStartsWith r.name imppref then refimp else refbase))
  else 0

def rowsMask (cfg : Config) (all : List String) : List SymRow → String → Nat
  | [], _ => 0
  | r :: rs, n => rowMask cfg all r n ||| rowsMask cfg all rs n

/-- Names defined (nonzero section index) and admitted in a symbol-table
block: the block-local `defs` set of `readSymtab`. -/
def blockDefNames (cfg : Config) (all : List String) : List SymRow → List String
  | [] => []
  | r :: rs =>
    if isInterestingSym cfg all r.name = true ∧ r.secidx ≠ 0
    then r.name :: blockDefNames cfg all rs
    else blockDefNames cfg all rs

/-- Disposition bit contributed to `n` by the co-location loop walking
`l` against the block-definition set `bd`. -/
def colocMaskGo (bd : List String) : List String → String → Nat
  | [], _ => 0
  | k :: ks, n =>
    (if strStartsWith k imppref = true ∧ stripImp k = n ∧ stripImp k ∈ bd
     then dsameobj else 0) ||| colocMaskGo bd ks n

def colocMask (bd : List String) (n : String) : Nat :=
  colocMaskGo bd bd n

/-- Disposition contribution of one whole object. -/
def objMask (cfg : Config) (all : List String) (o : ObjFile) (n : String) : Nat :=
  rowsMask cfg all o.symtab n ||| colocMask (blockDefNames cfg all o.symtab) n

def objsMask (cfg : Config) (all : List String) : List ObjFile → String → Nat
  | [], _ => 0
  | o :: os, n => objMask cfg all o n ||| objsMask cfg all os n

/-- Interest of a name independently of the evolving set: the first three
disjuncts of `isInterestingSym`. -/
def interestingSelf (cfg : Config) (x : String) : Bool :=
  strStartsWith x "__imp" || cfg.allsyms || decide (x ∈ cfg.watched)

/-- Identity-relevant part of a Reference entry: everything except the
offset list, which relocation binding later appends to. -/
def refSkel (r : RefInfo) : Nat × Int × Bool :=
  (r.objidx, r.secidx, r.isdef)

/-! ## Helper lemmas: strings, maps, sets -/

theorem listIsPref_iff (p l : List Char) :
    listIsPref p l = true ↔ ∃ t, l = p ++ t := by
  induction p generalizing l with
  | nil => simp [listIsPref]
  | cons a as ih =>
    cases l with
    | nil => simp [listIsPref]
    | cons b bs =>
      simp only [listIsPref, Bool.and_eq_true, decide_eq_true_eq, ih]
      constructor
      · rintro ⟨rfl, t, rfl⟩; exact ⟨t, rfl⟩
      · rintro ⟨t, ht⟩
        injection ht with h1 h2
        exact ⟨h1.symm, t, h2⟩

theorem strData_append (a b : String) : (a ++ b).data = a.data ++ b.data := by
  cases a; cases b; rfl

theorem strStartsWith_iff (s p : String) :
    strStartsWith s p = true ↔ ∃ t, s.data = p.data ++ t := by
  simp [strStartsWith, listIsPref_iff]

theorem strStartsWith_append (p s : String) :
    strStartsWith (p ++ s) p = true := by
  rw [strStartsWith_iff]
  exact ⟨s.data, strData_append p s⟩

theorem stripImp_append (s : String) : stripImp (imppref ++ s) = s := by
  cases s with
  | mk l =>
    show String.mk (((imppref ++ ⟨l⟩).data).drop imppref.length) = ⟨l⟩
    rw [strData_append]
    show String.mk ((imppref.data ++ l).drop imppref.data.length) = ⟨l⟩
    rw [List.drop_left]

theorem imppref_stripImp (k : String) (h : strStartsWith k imppref = true) :
    imppref ++ stripImp k = k := by
  rw [strStartsWith_iff] at h
  obtain ⟨t, ht⟩ := h
  cases k with
  | mk l =>
    simp only [String.data] at ht
    subst ht
    rw [show stripImp ⟨imppref.data ++ t⟩ = ⟨t⟩ from stripImp_append ⟨t⟩]
    cases imppref with
    | mk ip => rfl

theorem strStartsWith_imp5 (k : String) (h : strStartsWith k imppref = true) :
    strStartsWith k "__imp" = true := by
  rw [strStartsWith_iff] at h ⊢
  obtain ⟨t, ht⟩ := h
  exact ⟨'_' :: t, ht⟩

theorem mapGet_mapSet_self {α : Type} (m : List (String × α)) (k : String)
    (v : α) : mapGet (mapSet m k v) k = some v := by
  induction m with
  | nil => simp [mapGet, mapSet]
  | cons p rest ih =>
    obtain ⟨k', v'⟩ := p
    by_cases h : k' = k
    · simp [mapGet, mapSet, h]
    · simp [mapGet, mapSet, h, ih]

theorem mapGet_mapSet_ne {α : Type} (m : List (String × α)) (k k' : String)
    (v : α) (h : k ≠ k') : mapGet (mapSet m k v) k' = mapGet m k' := by
  induction m with
  | nil => simp [mapGet, mapSet, h]
  | cons p rest ih =>
    obtain ⟨k0, v0⟩ := p
    by_cases h0 : k0 = k
    · subst h0; simp [mapGet, mapSet, h]
    · simp only [mapSet, if_neg h0]
      by_cases h1 : k0 = k'
      · simp [mapGet, h1]
      · simp [mapGet, h1, ih]

theorem mem_listInsert (l : List String) (x y : String) :
    x ∈ listInsert l y ↔ x = y ∨ x ∈ l := by
  unfold listInsert
  by_cases h : y ∈ l
  · simp only [if_pos h]
    constructor
    · exact Or.inr
    · rintro (rfl | hx)
      · exact h
      · exact hx
  · simp [if_neg h, or_comm]

theorem mem_of_mem_listInsert (l : List String) (x y : String) (h : x ∈ l) :
    x ∈ listInsert l y := (mem_listInsert l x y).mpr (Or.inr h)

/-! ## Relocation binding: the backward walk -/

theorem walkRev_append (cur off : Nat) (xs ys : List RefInfo)
    (hxs : ∀ r ∈ xs, r.objidx = cur)
    (hys : ∀ r ∈ ys.head?, r.objidx ≠ cur) :
    walkRev cur off (xs ++ ys) = (xs.map (addOff off) ++ ys, !xs.isEmpty) := by
  induction xs with
  | nil =>
    cases ys with
    | nil => simp [walkRev]
    | cons y ys' =>
      have hy := hys y (by simp)
      simp [walkRev, hy]
  | cons x xs' ih =>
    have hx := hxs x (by simp)
    have ih' := ih (fun r hr => hxs r (by simp [hr]))
    simp [walkRev, hx, ih']

theorem bindRelocation_eq (cur off : Nat) (pre run : List RefInfo)
    (hrun : ∀ r ∈ run, r.objidx = cur) (hne : run ≠ [])
    (hpre : ∀ r ∈ pre.getLast?, r.objidx ≠ cur) :
    bindRelocation cur off (pre ++ run) = some (pre ++ run.map (addOff off)) := by
  unfold bindRelocation
  rw [List.reverse_append,
    walkRev_append cur off run.reverse pre.reverse
      (fun r hr => hrun r (List.mem_reverse.mp hr))
      (fun r hr => hpre r (by rwa [List.head?_reverse] at hr))]
  have hemp : run.reverse.isEmpty = false := by
    cases run with
    | nil => exact absurd rfl hne
    | cons a l => simp
  simp [hemp, List.map_reverse]

theorem addOffs_nil (r : RefInfo) : addOffs [] r = r := by
  simp [addOffs]

theorem addOffs_addOff (o : Nat) (os : List Nat) (r : RefInfo) :
    addOffs os (addOff o r) = addOffs (o :: os) r := by
  simp [addOffs, addOff]

/-- C1 — For every interesting symbol whose Reference list ends in a
contiguous run of entries belonging to the current object (preceded, if at
all, by an entry of a different object), binding a sequence of relocation
offsets appends every offset to every entry of that run and leaves the
earlier entries untouched: the backward scan stops at the first entry of a
different object and distributes to the whole run, not just the nearest
entry. -/
theorem bindOffsets_distributes (cur : Nat) (offs : List Nat)
    (pre run : List RefInfo)
    (hrun : ∀ r ∈ run, r.objidx = cur) (hne : run ≠ [])
    (hpre : ∀ r ∈ pre.getLast?, r.objidx ≠ cur) :
    bindOffsets cur offs (pre ++ run) = some (pre ++ run.map (addOffs offs)) := by
  induction offs generalizing run with
  | nil =>
    have : run.map (addOffs []) = run := by
      rw [List.map_congr_left (fun r _ => addOffs_nil r)]
      exact List.map_id run
    rw [bindOffsets, this]
  | cons o os ih =>
    rw [bindOffsets, bindRelocation_eq cur o pre run hrun hne hpre]
    show bindOffsets cur os (pre ++ run.map (addOff o)) =
      some (pre ++ run.map (addOffs (o :: os)))
    have h2 := ih (run.map (addOff o))
      (by
        intro r hr
        obtain ⟨r0, hr0, rfl⟩ := List.mem_map.mp hr
        simpa [addOff] using hrun r0 hr0)
      (by simpa using hne)
    rw [h2, List.map_map]
    have : run.map (addOffs os ∘ addOff o) = run.map (addOffs (o :: os)) :=
      List.map_congr_left (fun r _ => addOffs_addOff o os r)
    rw [this]

/-- C1 witness — with `k = 2` entries for the current object (index 1) and
`m = 3` relocation offsets, each of the 2 entries ends up with all 3
offsets, and the earlier entry of object 0 is untouched. -/
theorem bindOffsets_distributes_witness :
    bindOffsets 1 [16, 32, 48]
      ([⟨0, 0, [5], false⟩] ++ [⟨1, 0, [], false⟩, ⟨1, 0, [], true⟩]) =
      some ([⟨0, 0, [5], false⟩] ++
        ([⟨1, 0, [], false⟩, ⟨1, 0, [], true⟩] : List RefInfo).map
          (addOffs [16, 32, 48])) :=
  bindOffsets_distributes 1 [16, 32, 48] _ _ (by decide) (by decide) (by decide)

/-! ## C2: duplicate definitions -/

/-- C2 — Admitting a symbol-table row with nonzero section index for a
name that already has a Definition hits the duplicate check and aborts
(`panic("resolve collision here")` in the source) before the `defs` map,
the reference list, or the disposition flags are touched: the `.error`
result of the embedding carries no state, exactly as the aborting Go
process performs no further model mutation for that call. -/
theorem duplicate_definition_aborts (cfg : Config) (cur : Nat) (st : State)
    (bd : List String) (r : SymRow)
    (hint : isInterestingSym cfg st.all r.name = true)
    (hsec : r.secidx ≠ 0)
    (hdup : (mapGet st.defs r.name).isSome = true) :
    symtabRow cfg cur st bd r = .error "resolve collision here" := by
  simp [symtabRow, hint, hsec, hdup]

/-- C2 witness — a state already holding a definition for `__imp_a`
rejects a second defining row for `__imp_a`. -/
theorem duplicate_definition_aborts_witness :
    symtabRow ⟨false, []⟩ 1 ⟨[("__imp_a", ⟨0, 1, 0⟩)], [], [], []⟩ []
      ⟨2, 0, "__imp_a"⟩ = .error "resolve collision here" :=
  duplicate_definition_aborts _ _ _ _ _ (by decide) (by decide) (by decide)

/-! ## C5: relocation with no reference context -/

/-- C5 — A relocation row naming an interesting symbol for which no
Reference entry of the current object exists (the symbol has no Reference
list at all, or the backward scan from the tail immediately hits an entry
of a different object, i.e. finds zero entries) makes the run fail with
one of the two fatal errors of `readRelocations`, each naming the
offending symbol; the relocation is never silently skipped. -/
theorem missing_reference_context_fatal (cfg : Config) (cur : Nat)
    (st : State) (r : RelocRow)
    (hint : isInterestingSym cfg st.all r.sval = true)
    (hmiss : mapGet st.refs r.sval = none ∨
      ∃ rl, mapGet st.refs r.sval = some rl ∧
        ∀ ri ∈ rl.getLast?, ri.objidx ≠ cur) :
    relocRow cfg cur st r = .error ("cannot find refs entry in " ++ r.sval) ∨
    relocRow cfg cur st r = .error ("could not find ref info for reloc " ++ r.sval) := by
  rcases hmiss with h | ⟨rl, hrl, hlast⟩
  · left
    simp [relocRow, hint, h]
  · right
    have hb : bindRelocation cur r.off rl = none := by
      unfold bindRelocation
      cases hrev : rl.reverse with
      | nil => simp [walkRev]
      | cons ri rest =>
        have hl : rl.getLast? = some ri := by
          rw [← List.head?_reverse, hrev]
          rfl
        have hne := hlast ri (by simp [hl, Option.mem_def])
        simp [walkRev, hne]
    simp [relocRow, hint, hrl, hb]

/-- C5 witness — object 1 reports a relocation against `__imp_a`, whose
only reference entry belongs to object 0: fatal error. -/
theorem missing_reference_context_fatal_witness :
    relocRow ⟨false, []⟩ 1 ⟨[], [("__imp_a", [⟨0, 0, [], false⟩])], [], []⟩
        ⟨16, "__imp_a"⟩ =
      .error ("cannot find refs entry in " ++ "__imp_a") ∨
    relocRow ⟨false, []⟩ 1 ⟨[], [("__imp_a", [⟨0, 0, [], false⟩])], [], []⟩
        ⟨16, "__imp_a"⟩ =
      .error ("could not find ref info for reloc " ++ "__imp_a") :=
  missing_reference_context_fatal _ _ _ _ (by decide)
    (Or.inr ⟨[⟨0, 0, [], false⟩], by decide, by decide⟩)

/-! ## C4: the interest predicate -/

/-- C4 counterexample — the claim states that `isInteresting` returns
true only if the name carries the six-character import prefix `__imp_`
(or track-all / watch / already-interesting hold).  The source tests the
five-character literal `"__imp"`, so the name `"__impZ"` is classified
interesting although it satisfies none of the claim's four conditions. -/
theorem isInteresting_claim_counterexample :
    isInterestingSym ⟨false, []⟩ [] "__impZ" = true ∧
    ¬(strStartsWith "__impZ" imppref = true ∨
      (Config.mk false []).allsyms = true ∨
      "__impZ" ∈ (Config.mk false []).watched ∨
      "__impZ" ∈ ([] : List String)) := by
  constructor
  · decide
  · intro h
    rcases h with h | h | h | h
    · exact absurd h (by decide)
    · exact absurd h (by decide)
    · simp at h
    · simp at h

/-- C4 amended — `isInterestingSym` returns true iff the name carries the
five-character literal prefix `"__imp"` (not the six-character strippable
prefix `imppref = "__imp_"`), or track-all is enabled, or the name is in
the watch set, or it is already in the interesting-symbol set; a name
satisfying none of these is discarded: the symbol-table row and the
relocation row are no-ops on the model state. -/
theorem isInteresting_characterization (cfg : Config) (st : State)
    (bd : List String) (cur : Nat) (r : SymRow) (rr : RelocRow) :
    (isInterestingSym cfg st.all r.name = true ↔
      (strStartsWith r.name "__imp" = true ∨ cfg.allsyms = true ∨
        r.name ∈ cfg.watched ∨ r.name ∈ st.all)) ∧
    (isInterestingSym cfg st.all r.name = false →
      symtabRow cfg cur st bd r = .ok (st, bd)) ∧
    (isInterestingSym cfg st.all rr.sval = false →
      relocRow cfg cur st rr = .ok st) := by
  refine ⟨?_, ?_, ?_⟩
  · simp [isInterestingSym, Bool.or_eq_true, decide_eq_true_eq, or_assoc]
  · intro h
    simp [symtabRow, h]
  · intro h
    simp [relocRow, h]

/-- C4 witness — the uninteresting name `zork` (no `__imp` prefix, empty
watch set, track-all off, empty interesting set) leaves the state
unchanged when its symbol-table row is processed. -/
theorem isInteresting_characterization_witness :
    symtabRow ⟨false, []⟩ 0 ⟨[], [], [], []⟩ [] ⟨1, 0, "zork"⟩ =
      .ok (⟨[], [], [], []⟩, []) :=
  (isInteresting_characterization ⟨false, []⟩ ⟨[], [], [], []⟩ [] 0
    ⟨1, 0, "zork"⟩ ⟨0, "zork"⟩).2.1 (by decide)

/-! ## C9: sidecar path recovery -/

theorem find?_first {α : Type} (p : α → Bool) (pre post : List α) (x : α)
    (hpre : ∀ y ∈ pre, p y = false) (hx : p x = true) :
    (pre ++ x :: post).find? p = some x := by
  induction pre with
  | nil => simp [List.find?_cons_of_pos, hx]
  | cons a as ih =>
    have ha := hpre a (by simp)
    rw [List.cons_append, List.find?_cons_of_neg _ (by simp [ha])]
    exact ih (fun y hy => hpre y (by simp [hy]))

/-- C9 — Path recovery for an input `X.o` consults exactly the sidecar
file `X.txt` (`sidecarName`): when the input does not end in `.o`, or the
sidecar is absent/unreadable, or no line of it begins with `pn: `, the
result is the empty string and no error is raised (the function is total);
when the first line beginning with `pn: ` exists, the result is the rest
of that exact line after the 4-character prefix, verbatim. -/
theorem pathinfo_spec (fs : String → Option String) (infile : String) :
    (strEndsWith infile ".o" = false → pathinfo fs infile = "") ∧
    (strEndsWith infile ".o" = true → fs (sidecarName infile) = none →
      pathinfo fs infile = "") ∧
    (∀ content, strEndsWith infile ".o" = true →
      fs (sidecarName infile) = some content →
      (∀ l ∈ splitLines content, strStartsWith l "pn: " = false) →
      pathinfo fs infile = "") ∧
    (∀ content pre line post, strEndsWith infile ".o" = true →
      fs (sidecarName infile) = some content →
      splitLines content = pre ++ line :: post →
      (∀ l ∈ pre, strStartsWith l "pn: " = false) →
      strStartsWith line "pn: " = true →
      pathinfo fs infile = strDrop line 4) := by
  refine ⟨?_, ?_, ?_, ?_⟩
  · intro h
    simp [pathinfo, h]
  · intro h hfs
    simp [pathinfo, h, hfs]
  · intro content h hfs hno
    have : (splitLines content).find? (fun l => strStartsWith l "pn: ") = none :=
      List.find?_eq_none.mpr (fun x hx => by simp [hno x hx])
    simp [pathinfo, h, hfs, this]
  · intro content pre line post h hfs hsplit hpre hline
    have : (splitLines content).find? (fun l => strStartsWith l "pn: ") = some line := by
      rw [hsplit]
      exact find?_first _ pre post line hpre hline
    simp [pathinfo, h, hfs, this]

/-- C9 witness — for `a.o` with sidecar `a.txt` containing a non-matching
line followed by `pn: /my/p`, the recovered path is `/my/p`. -/
theorem pathinfo_spec_witness :
    pathinfo (fun s => if s = "a.txt" then some "x\npn: /my/p" else none) "a.o" =
      strDrop "pn: /my/p" 4 :=
  (pathinfo_spec (fun s => if s = "a.txt" then some "x\npn: /my/p" else none)
    "a.o").2.2.2 "x\npn: /my/p" ["x"] "pn: /my/p" [] (by decide) (by decide)
    (by decide) (by decide) (by decide)

/-! ## C3: pass-2 closure -/

theorem mem_pass2go_of_mem (x : String) :
    ∀ (l acc : List String), x ∈ acc → x ∈ pass2go l acc := by
  intro l
  induction l with
  | nil => intro acc h; exact h
  | cons k ks ih =>
    intro acc h
    unfold pass2go
    split
    · exact ih _ (mem_of_mem_listInsert _ _ _ h)
    · exact ih _ h

theorem strip_mem_pass2go (k : String) (hp : strStartsWith k imppref = true) :
    ∀ (l acc : List String), k ∈ l → stripImp k ∈ pass2go l acc := by
  intro l
  induction l with
  | nil => intro acc h; cases h
  | cons k0 ks ih =>
    intro acc h
    rcases List.mem_cons.mp h with rfl | h
    · unfold pass2go
      rw [if_pos hp]
      exact mem_pass2go_of_mem _ ks _
        ((mem_listInsert _ _ _).mpr (Or.inl rfl))
    · unfold pass2go
      split
      · exact ih _ h
      · exact ih _ h

theorem strip_mem_pass2 (all : List String) (k : String) (hk : k ∈ all)
    (hp : strStartsWith k imppref = true) : stripImp k ∈ pass2 all :=
  strip_mem_pass2go k hp all all hk

/-- C3 counterexample — the claim quantifies over every run: but in the
run on a single object whose symbol table holds the (interesting, since
`__imp`-prefixed) name `__imp___imp_X`, the set after Pass 2 contains
`__imp_X`, a name carrying the import prefix whose base `X` is absent —
Pass 2 folds over a snapshot of the set and is not a closure. -/
theorem pass2_closure_counterexample :
    "__imp_X" ∈ pass2 (pass1 ⟨false, []⟩ [⟨[⟨0, 0, "__imp___imp_X"⟩], []⟩]) ∧
    strStartsWith "__imp_X" imppref = true ∧
    stripImp "__imp_X" = "X" ∧
    "X" ∉ pass2 (pass1 ⟨false, []⟩ [⟨[⟨0, 0, "__imp___imp_X"⟩], []⟩]) := by
  refine ⟨by decide, by decide, by decide, by decide⟩

/-- C3 amended — every symbol name that carries the import prefix
`__imp_` and is present in the Interesting-Symbol Set at the end of
Pass 1 has its base (prefix-stripped) form present after Pass 2; only
names first added by Pass 2 itself (bases of doubly-prefixed names, which
themselves carry the prefix) may lack their base.  The converse is not
required. -/
theorem pass2_closes_pass1_names (cfg : Config) (objs : List ObjFile)
    (k : String) (hk : k ∈ pass1 cfg objs)
    (hp : strStartsWith k imppref = true) :
    stripImp k ∈ pass2 (pass1 cfg objs) :=
  strip_mem_pass2 _ k hk hp

/-- C3 witness — in a run on one object carrying `__imp_foo`, the base
`foo` is present after Pass 2. -/
theorem pass2_closes_pass1_names_witness :
    stripImp "__imp_foo" ∈
      pass2 (pass1 ⟨false, []⟩ [⟨[⟨0, 0, "__imp_foo"⟩], []⟩]) :=
  pass2_closes_pass1_names ⟨false, []⟩ [⟨[⟨0, 0, "__imp_foo"⟩], []⟩]
    "__imp_foo" (by decide) (by decide)

/-! ## Frame lemmas: which fields each operation leaves untouched -/

theorem maskOr_all (st : State) (n : String) (b : Nat) :
    (maskOr st n b).all = st.all := rfl

theorem maskOr_refs (st : State) (n : String) (b : Nat) :
    (maskOr st n b).refs = st.refs := rfl

theorem maskOr_defs (st : State) (n : String) (b : Nat) :
    (maskOr st n b).defs = st.defs := rfl

theorem maskAddDef_all (st : State) (n : String) :
    (maskAddDef st n).all = st.all := by
  unfold maskAddDef
  split <;> rfl

theorem maskAddRef_all (st : State) (n : String) :
    (maskAddRef st n).all = st.all := by
  unfold maskAddRef
  split <;> rfl

theorem symtabRow_ok_all (cfg : Config) (cur : Nat) (st : State)
    (bd : List String) (r : SymRow) (st' : State) (bd' : List String)
    (h : symtabRow cfg cur st bd r = .ok (st', bd')) : st'.all = st.all := by
  simp only [symtabRow] at h
  split at h
  · simp only [Except.ok.injEq, Prod.mk.injEq] at h
    rw [← h.1]
  · split at h
    · split at h
      · simp at h
      · simp only [Except.ok.injEq, Prod.mk.injEq] at h
        rw [← h.1]
        simp [maskAddDef_all]
    · simp only [Except.ok.injEq, Prod.mk.injEq] at h
      rw [← h.1]
      simp [maskAddRef_all]

theorem symtabRows_ok_all (cfg : Config) (cur : Nat) :
    ∀ (rows : List SymRow) (st : State) (bd : List String) (st' : State)
      (bd' : List String),
      symtabRows cfg cur rows st bd = .ok (st', bd') → st'.all = st.all := by
  intro rows
  induction rows with
  | nil =>
    intro st bd st' bd' h
    simp only [symtabRows, Except.ok.injEq, Prod.mk.injEq] at h
    rw [← h.1]
  | cons r rs ih =>
    intro st bd st' bd' h
    simp only [symtabRows] at h
    cases hr : symtabRow cfg cur st bd r with
    | error e => rw [hr] at h; simp at h
    | ok p =>
      rw [hr] at h
      exact (ih p.1 p.2 st' bd' h).trans
        (symtabRow_ok_all cfg cur st bd r p.1 p.2 (by rw [hr]))

theorem colocateGo_all (bd : List String) :
    ∀ (l : List String) (st : State), (colocateGo bd l st).all = st.all := by
  intro l
  induction l with
  | nil => intro st; rfl
  | cons k ks ih =>
    intro st
    unfold colocateGo
    rw [ih]
    split
    · split <;> rfl
    · rfl

theorem readSymtab_ok_all (cfg : Config) (cur : Nat) (rows : List SymRow)
    (st st' : State) (h : readSymtab cfg cur rows st = .ok st') :
    st'.all = st.all := by
  simp only [readSymtab] at h
  cases hs : symtabRows cfg cur rows st [] with
  | error e => rw [hs] at h; simp at h
  | ok p =>
    rw [hs] at h
    simp only [Except.ok.injEq] at h
    rw [← h, colocate, colocateGo_all]
    exact symtabRows_ok_all cfg cur rows st [] p.1 p.2 (by rw [hs])

theorem relocRow_ok_frame (cfg : Config) (cur : Nat) (st : State)
    (r : RelocRow) (st' : State) (h : relocRow cfg cur st r = .ok st') :
    st'.all = st.all ∧ st'.defs = st.defs ∧ st'.defref = st.defref := by
  simp only [relocRow] at h
  split at h
  · simp only [Except.ok.injEq] at h
    rw [← h]
    exact ⟨rfl, rfl, rfl⟩
  · split at h
    · simp at h
    · split at h
      · simp only [Except.ok.injEq] at h
        rw [← h]
        exact ⟨rfl, rfl, rfl⟩
      · simp at h

theorem relocRows_ok_frame (cfg : Config) (cur : Nat) :
    ∀ (rs : List RelocRow) (st st' : State),
      relocRows cfg cur rs st = .ok st' →
      st'.all = st.all ∧ st'.defs = st.defs ∧ st'.defref = st.defref := by
  intro rs
  induction rs with
  | nil =>
    intro st st' h
    simp only [relocRows, Except.ok.injEq] at h
    rw [← h]
    exact ⟨rfl, rfl, rfl⟩
  | cons r rs' ih =>
    intro st st' h
    simp only [relocRows] at h
    cases hr : relocRow cfg cur st r with
    | error e => rw [hr] at h; simp at h
    | ok st1 =>
      rw [hr] at h
      obtain ⟨ha, hd, hr'⟩ := ih st1 st' h
      obtain ⟨ha0, hd0, hr0⟩ := relocRow_ok_frame cfg cur st r st1 hr
      exact ⟨ha.trans ha0, hd.trans hd0, hr'.trans hr0⟩

theorem relocBlocks_ok_frame (cfg : Config) (cur : Nat) :
    ∀ (bs : List (List RelocRow)) (st st' : State),
      relocBlocks cfg cur bs st = .ok st' →
      st'.all = st.all ∧ st'.defs = st.defs ∧ st'.defref = st.defref := by
  intro bs
  induction bs with
  | nil =>
    intro st st' h
    simp only [relocBlocks, Except.ok.injEq] at h
    rw [← h]
    exact ⟨rfl, rfl, rfl⟩
  | cons b bs' ih =>
    intro st st' h
    simp only [relocBlocks] at h
    cases hb : relocRows cfg cur b st with
    | error e => rw [hb] at h; simp at h
    | ok st1 =>
      rw [hb] at h
      obtain ⟨ha, hd, hr⟩ := ih st1 st' h
      obtain ⟨ha0, hd0, hr0⟩ := relocRows_ok_frame cfg cur b st st1 hb
      exact ⟨ha.trans ha0, hd.trans hd0, hr.trans hr0⟩

theorem pass3obj_ok_all (cfg : Config) (cur : Nat) (o : ObjFile)
    (st st' : State) (h : pass3obj cfg cur o st = .ok st') :
    st'.all = st.all := by
  simp only [pass3obj] at h
  cases hs : readSymtab cfg cur o.symtab st with
  | error e => rw [hs] at h; simp at h
  | ok st1 =>
    rw [hs] at h
    exact ((relocBlocks_ok_frame cfg cur o.relocs st1 st' h).1).trans
      (readSymtab_ok_all cfg cur o.symtab st st1 hs)

/-! ## C10: monotonicity of the interest predicate -/

theorem mem_pass1names_of_mem (cfg : Config) :
    ∀ (ns : List String) (a : List String) (x : String),
      x ∈ a → x ∈ pass1names cfg a ns := by
  intro ns
  induction ns with
  | nil => intro a x h; exact h
  | cons n ns' ih =>
    intro a x h
    unfold pass1names
    split
    · exact ih _ _ (mem_of_mem_listInsert _ _ _ h)
    · exact ih _ _ h

/-- C10 — The interest predicate is monotone over a run: it is monotone
in the interesting-symbol set (with the configuration fixed for the whole
run), Pass 1 and Pass 2 only ever add names to that set, and Pass 3 never
modifies it — so once `isInterestingSym` answers true for a name, it
answers true for the remainder of the run. -/
theorem interest_monotone :
    (∀ (cfg : Config) (a a' : List String) (n : String),
      (∀ x, x ∈ a → x ∈ a') →
      isInterestingSym cfg a n = true → isInterestingSym cfg a' n = true) ∧
    (∀ (cfg : Config) (ns a : List String) (x : String),
      x ∈ a → x ∈ pass1names cfg a ns) ∧
    (∀ (a : List String) (x : String), x ∈ a → x ∈ pass2 a) ∧
    (∀ (cfg : Config) (cur : Nat) (o : ObjFile) (st st' : State),
      pass3obj cfg cur o st = .ok st' → st'.all = st.all) := by
  refine ⟨?_, ?_, ?_, ?_⟩
  · intro cfg a a' n hsub h
    simp only [isInterestingSym, Bool.or_eq_true, decide_eq_true_eq] at h ⊢
    rcases h with ((h | h) | h) | h
    · exact Or.inl (Or.inl (Or.inl h))
    · exact Or.inl (Or.inl (Or.inr h))
    · exact Or.inl (Or.inr h)
    · exact Or.inr (hsub n h)
  · intro cfg ns a x h
    exact mem_pass1names_of_mem cfg ns a x h
  · intro a x h
    exact mem_pass2go_of_mem x a a h
  · intro cfg cur o st st' h
    exact pass3obj_ok_all cfg cur o st st' h

/-- C10 witness — growing the interesting set from `[a]` to `[a, b]`
preserves the interest of `a`. -/
theorem interest_monotone_witness :
    isInterestingSym ⟨false, []⟩ ["a", "b"] "a" = true :=
  interest_monotone.1 ⟨false, []⟩ ["a"] ["a", "b"] "a" (by decide) (by decide)

/-! ## Characterization of the disposition masks

The disposition contribution of each admitted symbol-table row, and of the
co-location pass, is recomputed here as a pure function of the rows; the
lemmas show the state's `defref` map after a block is the bitwise OR of
the old value with these contributions. -/

theorem defrefGet_congr (st st' : State) (h : st'.defref = st.defref)
    (n : String) : defrefGet st' n = defrefGet st n := by
  unfold defrefGet
  rw [h]

theorem defrefGet_refsUpdate (st : State) (rs : List (String × List RefInfo))
    (n : String) : defrefGet { st with refs := rs } n = defrefGet st n := rfl

theorem defrefGet_defsUpdate (st : State) (ds : List (String × DefInfo))
    (n : String) : defrefGet { st with defs := ds } n = defrefGet st n := rfl

theorem defrefGet_maskOr (st : State) (m : String) (b : Nat) (n : String) :
    defrefGet (maskOr st m b) n = defrefGet st n ||| (if m = n then b else 0) := by
  by_cases h : m = n
  · subst h
    show (mapGet (mapSet st.defref m (defrefGet st m ||| b)) m).getD 0 =
      defrefGet st m ||| if m = m then b else 0
    rw [mapGet_mapSet_self, if_pos rfl]
    rfl
  · show (mapGet (mapSet st.defref m (defrefGet st m ||| b)) n).getD 0 =
      defrefGet st n ||| if m = n then b else 0
    rw [mapGet_mapSet_ne _ _ _ _ h, if_neg h, Nat.or_zero]
    rfl

theorem defrefGet_maskAddDef (st : State) (m n : String) :
    defrefGet (maskAddDef st m) n = defrefGet st n |||
      (if (if strStartsWith m imppref then stripImp m else m) = n
       then (if strStartsWith m imppref then defimp else defbase) else 0) := by
  unfold maskAddDef
  by_cases hp : strStartsWith m imppref = true
  · simp only [if_pos hp]
    exact defrefGet_maskOr st (stripImp m) defimp n
  · simp only [if_neg hp]
    exact defrefGet_maskOr st m defbase n

theorem defrefGet_maskAddRef (st : State) (m n : String) :
    defrefGet (maskAddRef st m) n = defrefGet st n |||
      (if (if strStartsWith m imppref then stripImp m else m) = n
       then (if strStartsWith m imppref then refimp else refbase) else 0) := by
  unfold maskAddRef
  by_cases hp : strStartsWith m imppref = true
  · simp only [if_pos hp]
    exact defrefGet_maskOr st (stripImp m) refimp n
  · simp only [if_neg hp]
    exact defrefGet_maskOr st m refbase n

theorem symtabRow_ok_defref (cfg : Config) (cur : Nat) (st : State)
    (bd : List String) (r : SymRow) (st' : State) (bd' : List String)
    (h : symtabRow cfg cur st bd r = .ok (st', bd')) (n : String) :
    defrefGet st' n = defrefGet st n ||| rowMask cfg st.all r n := by
  simp only [symtabRow] at h
  split at h
  · rename_i hint
    simp only [Except.ok.injEq, Prod.mk.injEq] at h
    rw [← h.1, rowMask, if_pos hint, Nat.or_zero]
  · rename_i hint
    split at h
    · rename_i hsec
      split at h
      · simp at h
      · simp only [Except.ok.injEq, Prod.mk.injEq] at h
        rw [← h.1, defrefGet_refsUpdate, defrefGet_maskAddDef,
          defrefGet_defsUpdate, rowMask, if_neg hint, if_pos hsec]
    · rename_i hsec
      simp only [Except.ok.injEq, Prod.mk.injEq] at h
      rw [← h.1, defrefGet_maskAddRef, defrefGet_refsUpdate,
        rowMask, if_neg hint, if_neg hsec]

theorem symtabRow_ok_bd (cfg : Config) (cur : Nat) (st : State)
    (bd : List String) (r : SymRow) (st' : State) (bd' : List String)
    (h : symtabRow cfg cur st bd r = .ok (st', bd')) :
    bd' = bd ++ (if isInterestingSym cfg st.all r.name = true ∧ r.secidx ≠ 0
      then [r.name] else []) := by
  simp only [symtabRow] at h
  split at h
  · rename_i hint
    simp only [Except.ok.injEq, Prod.mk.injEq] at h
    rw [← h.2, if_neg (by simp [hint]), List.append_nil]
  · rename_i hint
    have hint' : isInterestingSym cfg st.all r.name = true := by
      revert hint
      cases isInterestingSym cfg st.all r.name <;> simp
    split at h
    · rename_i hsec
      split at h
      · simp at h
      · simp only [Except.ok.injEq, Prod.mk.injEq] at h
        rw [← h.2, if_pos ⟨hint', hsec⟩]
    · rename_i hsec
      simp only [Except.ok.injEq, Prod.mk.injEq] at h
      rw [← h.2, if_neg (by simp [hsec]), List.append_nil]

theorem symtabRows_ok_defref (cfg : Config) (cur : Nat) :
    ∀ (rows : List SymRow) (st : State) (bd : List String) (st' : State)
      (bd' : List String),
      symtabRows cfg cur rows st bd = .ok (st', bd') →
      (∀ n, defrefGet st' n = defrefGet st n ||| rowsMask cfg st.all rows n) ∧
      bd' = bd ++ blockDefNames cfg st.all rows := by
  intro rows
  induction rows with
  | nil =>
    intro st bd st' bd' h
    simp only [symtabRows, Except.ok.injEq, Prod.mk.injEq] at h
    refine ⟨fun n => ?_, ?_⟩
    · rw [← h.1, rowsMask, Nat.or_zero]
    · rw [← h.2, blockDefNames, List.append_nil]
  | cons r rs ih =>
    intro st bd st' bd' h
    simp only [symtabRows] at h
    cases hr : symtabRow cfg cur st bd r with
    | error e => rw [hr] at h; simp at h
    | ok p =>
      rw [hr] at h
      have hall : p.1.all = st.all :=
        symtabRow_ok_all cfg cur st bd r p.1 p.2 (by rw [hr])
      obtain ⟨ihd, ihb⟩ := ih p.1 p.2 st' bd' h
      have h2 := symtabRow_ok_defref cfg cur st bd r p.1 p.2 (by rw [hr])
      have hb2 := symtabRow_ok_bd cfg cur st bd r p.1 p.2 (by rw [hr])
      constructor
      · intro n
        rw [ihd n, hall, h2 n, rowsMask, Nat.lor_assoc]
      · rw [ihb, hall, hb2, List.append_assoc, blockDefNames]
        by_cases hc : isInterestingSym cfg st.all r.name = true ∧ r.secidx ≠ 0
        · rw [if_pos hc, if_pos hc]
          rfl
        · rw [if_neg hc, if_neg hc]
          rfl

/-! ## Colocation mask and whole-pass characterization -/

theorem defrefGet_colocateGo (bd : List String) :
    ∀ (l : List String) (st : State) (n : String),
      defrefGet (colocateGo bd l st) n = defrefGet st n ||| colocMaskGo bd l n := by
  intro l
  induction l with
  | nil =>
    intro st n
    rw [colocateGo, colocMaskGo, Nat.or_zero]
  | cons k ks ih =>
    intro st n
    rw [colocateGo, ih, colocMaskGo, ← Nat.lor_assoc]
    congr 1
    by_cases hp : strStartsWith k imppref = true
    · by_cases hm : stripImp k ∈ bd
      · rw [if_pos hp, if_pos hm, defrefGet_maskOr]
        congr 1
        by_cases he : stripImp k = n
        · rw [if_pos he, if_pos ⟨hp, he, hm⟩]
        · rw [if_neg he, if_neg (by simp [he])]
      · rw [if_pos hp, if_neg hm, if_neg (by simp [hm])]
        exact (Nat.or_zero _).symm
    · rw [if_neg hp, if_neg (by simp [hp])]
      exact (Nat.or_zero _).symm

theorem colocMaskGo_eq (bd : List String) :
    ∀ (l : List String) (n : String),
      colocMaskGo bd l n =
        if (∃ k ∈ l, strStartsWith k imppref = true ∧ stripImp k = n ∧
            stripImp k ∈ bd)
        then dsameobj else 0 := by
  intro l
  induction l with
  | nil =>
    intro n
    rw [colocMaskGo, if_neg (by simp)]
  | cons k ks ih =>
    intro n
    rw [colocMaskGo, ih]
    by_cases hk : strStartsWith k imppref = true ∧ stripImp k = n ∧ stripImp k ∈ bd
    · rw [if_pos hk]
      by_cases hrest : ∃ k' ∈ ks, strStartsWith k' imppref = true ∧
          stripImp k' = n ∧ stripImp k' ∈ bd
      · rw [if_pos hrest, if_pos ⟨k, List.mem_cons_self k ks, hk⟩]
        decide
      · rw [if_neg hrest, if_pos ⟨k, List.mem_cons_self k ks, hk⟩, Nat.or_zero]
    · rw [if_neg hk]
      by_cases hrest : ∃ k' ∈ ks, strStartsWith k' imppref = true ∧
          stripImp k' = n ∧ stripImp k' ∈ bd
      · obtain ⟨k', hk', hp'⟩ := hrest
        rw [if_pos ⟨k', hk', hp'⟩, if_pos ⟨k', List.mem_cons_of_mem k hk', hp'⟩,
          Nat.zero_or]
      · rw [if_neg hrest, if_neg ?hno, Nat.zero_or]
        case hno =>
          rintro ⟨k', hk', hp'⟩
          rcases List.mem_cons.mp hk' with rfl | hmem
          · exact hk hp'
          · exact hrest ⟨k', hmem, hp'⟩

theorem colocMask_eq (bd : List String) (n : String) :
    colocMask bd n = if ((imppref ++ n) ∈ bd ∧ n ∈ bd) then dsameobj else 0 := by
  rw [colocMask, colocMaskGo_eq]
  by_cases h : (imppref ++ n) ∈ bd ∧ n ∈ bd
  · rw [if_pos h, if_pos ?hex]
    case hex =>
      exact ⟨imppref ++ n, h.1, strStartsWith_append imppref n, stripImp_append n,
        by rw [stripImp_append]; exact h.2⟩
  · rw [if_neg h, if_neg ?hnex]
    case hnex =>
      rintro ⟨k, hk, hp, hs, hm⟩
      refine h ⟨?_, ?_⟩
      · have := imppref_stripImp k hp
        rw [hs] at this
        rwa [this]
      · rwa [hs] at hm

theorem readSymtab_ok_defref (cfg : Config) (cur : Nat) (rows : List SymRow)
    (st st' : State) (h : readSymtab cfg cur rows st = .ok st') (n : String) :
    defrefGet st' n = defrefGet st n |||
      (rowsMask cfg st.all rows n ||| colocMask (blockDefNames cfg st.all rows) n) := by
  simp only [readSymtab] at h
  cases hs : symtabRows cfg cur rows st [] with
  | error e => rw [hs] at h; simp at h
  | ok p =>
    rw [hs] at h
    simp only [Except.ok.injEq] at h
    obtain ⟨hdr, hbd⟩ := symtabRows_ok_defref cfg cur rows st [] p.1 p.2 hs
    rw [List.nil_append] at hbd
    rw [← h, colocate, defrefGet_colocateGo, hdr n, ← hbd, Nat.lor_assoc]
    rw [hbd]
    rfl

theorem pass3obj_ok_defref (cfg : Config) (cur : Nat) (o : ObjFile)
    (st st' : State) (h : pass3obj cfg cur o st = .ok st') (n : String) :
    defrefGet st' n = defrefGet st n ||| objMask cfg st.all o n := by
  simp only [pass3obj] at h
  cases hs : readSymtab cfg cur o.symtab st with
  | error e => rw [hs] at h; simp at h
  | ok st1 =>
    rw [hs] at h
    have hfr := (relocBlocks_ok_frame cfg cur o.relocs st1 st' h).2.2
    rw [defrefGet_congr st1 st' hfr n]
    exact readSymtab_ok_defref cfg cur o.symtab st st1 hs n

theorem pass3objs_ok_defref (cfg : Config) :
    ∀ (objs : List ObjFile) (k : Nat) (st : State) (s : State),
      pass3objs cfg k objs st = .ok s →
      ∀ n, defrefGet s n = defrefGet st n ||| objsMask cfg st.all objs n := by
  intro objs
  induction objs with
  | nil =>
    intro k st s h n
    simp only [pass3objs, Except.ok.injEq] at h
    rw [← h, objsMask, Nat.or_zero]
  | cons o os ih =>
    intro k st s h n
    simp only [pass3objs] at h
    cases ho : pass3obj cfg k o st with
    | error e => rw [ho] at h; simp at h
    | ok st1 =>
      rw [ho] at h
      have hall : st1.all = st.all := pass3obj_ok_all cfg k o st st1 ho
      have h1 := ih (k + 1) st1 s h n
      rw [h1, hall, pass3obj_ok_defref cfg k o st st1 ho n, objsMask,
        Nat.lor_assoc]

/-! ## Congruence in the interesting-symbol set, and pass-1/2 membership -/

theorem isInterestingSym_congr (cfg : Config) (a a' : List String)
    (h : ∀ x, x ∈ a ↔ x ∈ a') (n : String) :
    isInterestingSym cfg a n = isInterestingSym cfg a' n := by
  unfold isInterestingSym
  rw [decide_eq_decide.mpr (h n)]

theorem rowMask_congr (cfg : Config) (a a' : List String)
    (h : ∀ x, x ∈ a ↔ x ∈ a') (r : SymRow) (n : String) :
    rowMask cfg a r n = rowMask cfg a' r n := by
  unfold rowMask
  rw [isInterestingSym_congr cfg a a' h r.name]

theorem rowsMask_congr (cfg : Config) (a a' : List String)
    (h : ∀ x, x ∈ a ↔ x ∈ a') :
    ∀ (rows : List SymRow) (n : String),
      rowsMask cfg a rows n = rowsMask cfg a' rows n := by
  intro rows
  induction rows with
  | nil => intro n; rfl
  | cons r rs ih =>
    intro n
    rw [rowsMask, rowsMask, rowMask_congr cfg a a' h r n, ih n]

theorem blockDefNames_congr (cfg : Config) (a a' : List String)
    (h : ∀ x, x ∈ a ↔ x ∈ a') :
    ∀ (rows : List SymRow),
      blockDefNames cfg a rows = blockDefNames cfg a' rows := by
  intro rows
  induction rows with
  | nil => rfl
  | cons r rs ih =>
    rw [blockDefNames, blockDefNames, isInterestingSym_congr cfg a a' h r.name, ih]

theorem objMask_congr (cfg : Config) (a a' : List String)
    (h : ∀ x, x ∈ a ↔ x ∈ a') (o : ObjFile) (n : String) :
    objMask cfg a o n = objMask cfg a' o n := by
  unfold objMask
  rw [rowsMask_congr cfg a a' h, blockDefNames_congr cfg a a' h]

theorem isInterestingSym_split (cfg : Config) (a : List String) (n : String) :
    isInterestingSym cfg a n = (interestingSelf cfg n || decide (n ∈ a)) := rfl

theorem mem_pass1names_iff (cfg : Config) :
    ∀ (ns a : List String) (x : String),
      x ∈ pass1names cfg a ns ↔
        x ∈ a ∨ (x ∈ ns ∧ interestingSelf cfg x = true) := by
  intro ns
  induction ns with
  | nil =>
    intro a x
    simp [pass1names]
  | cons n ns' ih =>
    intro a x
    rw [pass1names]
    have hstep : ∀ y, y ∈ (if isInterestingSym cfg a n then listInsert a n else a) ↔
        y ∈ a ∨ (y = n ∧ interestingSelf cfg n = true) := by
      intro y
      by_cases hc : isInterestingSym cfg a n = true
      · rw [if_pos hc, mem_listInsert]
        rw [isInterestingSym_split] at hc
        rcases Bool.or_eq_true_iff.mp hc with hself | hmem
        · simp [hself, or_comm]
        · have : n ∈ a := of_decide_eq_true hmem
          constructor
          · rintro (rfl | hy)
            · exact Or.inl this
            · exact Or.inl hy
          · rintro (hy | ⟨rfl, _⟩)
            · exact Or.inr hy
            · exact Or.inl rfl
      · rw [if_neg hc]
        rw [isInterestingSym_split] at hc
        have hself : interestingSelf cfg n = false := by
          revert hc
          cases interestingSelf cfg n <;> simp
        simp [hself]
    rw [ih, hstep x]
    constructor
    · rintro ((hx | ⟨rfl, hs⟩) | ⟨hx, hs⟩)
      · exact Or.inl hx
      · exact Or.inr ⟨List.mem_cons_self _ _, hs⟩
      · exact Or.inr ⟨List.mem_cons_of_mem _ hx, hs⟩
    · rintro (hx | ⟨hx, hs⟩)
      · exact Or.inl (Or.inl hx)
      · rcases List.mem_cons.mp hx with rfl | hx'
        · exact Or.inl (Or.inr ⟨rfl, hs⟩)
        · exact Or.inr ⟨hx', hs⟩

theorem mem_pass1go_iff (cfg : Config) :
    ∀ (objs : List ObjFile) (acc : List String) (x : String),
      x ∈ pass1go cfg objs acc ↔
        x ∈ acc ∨ ∃ o ∈ objs, x ∈ o.symtab.map SymRow.name ∧
          interestingSelf cfg x = true := by
  intro objs
  induction objs with
  | nil =>
    intro acc x
    simp [pass1go]
  | cons o os ih =>
    intro acc x
    rw [pass1go, ih, mem_pass1names_iff]
    constructor
    · rintro ((hx | ⟨hm, hs⟩) | ⟨o', ho', hm', hs'⟩)
      · exact Or.inl hx
      · exact Or.inr ⟨o, List.mem_cons_self _ _, hm, hs⟩
      · exact Or.inr ⟨o', List.mem_cons_of_mem _ ho', hm', hs'⟩
    · rintro (hx | ⟨o', ho', hm', hs'⟩)
      · exact Or.inl (Or.inl hx)
      · rcases List.mem_cons.mp ho' with rfl | ho''
        · exact Or.inl (Or.inr ⟨hm', hs'⟩)
        · exact Or.inr ⟨o', ho'', hm', hs'⟩

theorem mem_pass1_iff (cfg : Config) (objs : List ObjFile) (x : String) :
    x ∈ pass1 cfg objs ↔
      ∃ o ∈ objs, x ∈ o.symtab.map SymRow.name ∧
        interestingSelf cfg x = true := by
  rw [pass1, mem_pass1go_iff]
  simp

theorem mem_pass2go_iff :
    ∀ (l acc : List String) (x : String),
      x ∈ pass2go l acc ↔
        x ∈ acc ∨ ∃ k ∈ l, strStartsWith k imppref = true ∧ stripImp k = x := by
  intro l
  induction l with
  | nil =>
    intro acc x
    simp [pass2go]
  | cons k ks ih =>
    intro acc x
    rw [pass2go]
    have hstep : ∀ y, y ∈ (if strStartsWith k imppref then listInsert acc (stripImp k) else acc) ↔
        y ∈ acc ∨ (strStartsWith k imppref = true ∧ stripImp k = y) := by
      intro y
      by_cases hc : strStartsWith k imppref = true
      · rw [if_pos hc, mem_listInsert]
        constructor
        · rintro (rfl | hy)
          · exact Or.inr ⟨hc, rfl⟩
          · exact Or.inl hy
        · rintro (hy | ⟨_, rfl⟩)
          · exact Or.inr hy
          · exact Or.inl rfl
      · rw [if_neg hc]
        simp [hc]
    rw [ih, hstep x]
    constructor
    · rintro ((hx | ⟨hp, hs⟩) | ⟨k', hk', hp', hs'⟩)
      · exact Or.inl hx
      · exact Or.inr ⟨k, List.mem_cons_self _ _, hp, hs⟩
      · exact Or.inr ⟨k', List.mem_cons_of_mem _ hk', hp', hs'⟩
    · rintro (hx | ⟨k', hk', hp', hs'⟩)
      · exact Or.inl (Or.inl hx)
      · rcases List.mem_cons.mp hk' with rfl | hk''
        · exact Or.inl (Or.inr ⟨hp', hs'⟩)
        · exact Or.inr ⟨k', hk'', hp', hs'⟩

theorem mem_pass2_iff (all : List String) (x : String) :
    x ∈ pass2 all ↔
      x ∈ all ∨ ∃ k ∈ all, strStartsWith k imppref = true ∧ stripImp k = x := by
  rw [pass2, mem_pass2go_iff]

theorem pipeline_all_swap (cfg : Config) (A B : ObjFile) (x : String) :
    x ∈ pass2 (pass1 cfg [A, B]) ↔ x ∈ pass2 (pass1 cfg [B, A]) := by
  have h1 : ∀ y, y ∈ pass1 cfg [A, B] ↔ y ∈ pass1 cfg [B, A] := by
    intro y
    rw [mem_pass1_iff, mem_pass1_iff]
    constructor
    · rintro ⟨o, ho, hm, hs⟩
      rcases List.mem_cons.mp ho with rfl | ho'
      · exact ⟨o, by simp, hm, hs⟩
      · exact ⟨o, by simp [List.mem_singleton.mp ho'], hm, hs⟩
    · rintro ⟨o, ho, hm, hs⟩
      rcases List.mem_cons.mp ho with rfl | ho'
      · exact ⟨o, by simp, hm, hs⟩
      · exact ⟨o, by simp [List.mem_singleton.mp ho'], hm, hs⟩
  rw [mem_pass2_iff, mem_pass2_iff]
  constructor
  · rintro (hx | ⟨k, hk, hp, hs⟩)
    · exact Or.inl ((h1 x).mp hx)
    · exact Or.inr ⟨k, (h1 k).mp hk, hp, hs⟩
  · rintro (hx | ⟨k, hk, hp, hs⟩)
    · exact Or.inl ((h1 x).mpr hx)
    · exact Or.inr ⟨k, (h1 k).mpr hk, hp, hs⟩

/-- C7 — Disposition flags accumulate as a pure bitwise OR of per-object
contributions, so they are order-independent: whenever the run on objects
`[A, B]` and the run on `[B, A]` both complete, the final disposition
flags agree for every base symbol name — in particular for a symbol
defined in one object and referenced in the other. -/
theorem dispositions_order_independent (cfg : Config) (A B : ObjFile)
    (s1 s2 : State)
    (h1 : runAll cfg [A, B] = .ok s1) (h2 : runAll cfg [B, A] = .ok s2)
    (n : String) : defrefGet s1 n = defrefGet s2 n := by
  unfold runAll at h1 h2
  have e1 := pass3objs_ok_defref cfg [A, B] 0 _ s1 h1 n
  have e2 := pass3objs_ok_defref cfg [B, A] 0 _ s2 h2 n
  rw [e1, e2]
  show 0 ||| objsMask cfg (pass2 (pass1 cfg [A, B])) [A, B] n =
    0 ||| objsMask cfg (pass2 (pass1 cfg [B, A])) [B, A] n
  rw [Nat.zero_or, Nat.zero_or]
  have hcongr := pipeline_all_swap cfg A B
  rw [objsMask, objsMask, objsMask, objsMask, objsMask, objsMask,
    Nat.or_zero, Nat.or_zero]
  rw [objMask_congr cfg _ _ (fun x => (hcongr x).symm) B n,
    objMask_congr cfg _ _ (fun x => (hcongr x).symm) A n]
  exact Nat.lor_comm _ _

/-- C7 witness — object `objA7` defines `foo`, object `objB7` references
it (watch set `foo`); both orders complete and give `foo` the same
disposition flags. -/
theorem dispositions_order_independent_witness :
    ∃ s1 s2, runAll ⟨false, ["foo"]⟩
        [⟨[⟨1, 0, "foo"⟩], []⟩, ⟨[⟨0, 0, "foo"⟩], []⟩] = .ok s1 ∧
      runAll ⟨false, ["foo"]⟩
        [⟨[⟨0, 0, "foo"⟩], []⟩, ⟨[⟨1, 0, "foo"⟩], []⟩] = .ok s2 ∧
      defrefGet s1 "foo" = defrefGet s2 "foo" := by
  have hok1 : (runAll ⟨false, ["foo"]⟩
      [⟨[⟨1, 0, "foo"⟩], []⟩, ⟨[⟨0, 0, "foo"⟩], []⟩]).isOk = true := by decide
  have hok2 : (runAll ⟨false, ["foo"]⟩
      [⟨[⟨0, 0, "foo"⟩], []⟩, ⟨[⟨1, 0, "foo"⟩], []⟩]).isOk = true := by decide
  cases h1 : runAll ⟨false, ["foo"]⟩
      [⟨[⟨1, 0, "foo"⟩], []⟩, ⟨[⟨0, 0, "foo"⟩], []⟩] with
  | error e => rw [h1] at hok1; exact absurd hok1 (by simp [Except.isOk, Except.toBool])
  | ok s1 =>
    cases h2 : runAll ⟨false, ["foo"]⟩
        [⟨[⟨0, 0, "foo"⟩], []⟩, ⟨[⟨1, 0, "foo"⟩], []⟩] with
    | error e => rw [h2] at hok2; exact absurd hok2 (by simp [Except.isOk, Except.toBool])
    | ok s2 =>
      exact ⟨s1, s2, rfl, rfl,
        dispositions_order_independent ⟨false, ["foo"]⟩
          ⟨[⟨1, 0, "foo"⟩], []⟩ ⟨[⟨0, 0, "foo"⟩], []⟩ s1 s2 h1 h2 "foo"⟩

/-! ## Colocation flag: bit-5 analysis -/

theorem rowMask_testBit5 (cfg : Config) (all : List String) (r : SymRow)
    (n : String) : (rowMask cfg all r n).testBit 5 = false := by
  by_cases h1 : isInterestingSym cfg all r.name = false
  · rw [rowMask, if_pos h1]
    decide
  · rw [rowMask, if_neg h1]
    by_cases h2 : (if strStartsWith r.name imppref then stripImp r.name
        else r.name) = n
    · rw [if_pos h2]
      by_cases h3 : r.secidx ≠ 0
      · rw [if_pos h3]
        by_cases h4 : strStartsWith r.name imppref = true
        · rw [if_pos h4]
          decide
        · rw [if_neg h4]
          decide
      · rw [if_neg h3]
        by_cases h4 : strStartsWith r.name imppref = true
        · rw [if_pos h4]
          decide
        · rw [if_neg h4]
          decide
    · rw [if_neg h2]
      decide

theorem rowsMask_testBit5 (cfg : Config) (all : List String) :
    ∀ (rows : List SymRow) (n : String),
      (rowsMask cfg all rows n).testBit 5 = false := by
  intro rows
  induction rows with
  | nil =>
    intro n
    show Nat.testBit 0 5 = false
    decide
  | cons r rs ih =>
    intro n
    rw [rowsMask, Nat.testBit_lor, rowMask_testBit5, ih n]
    rfl

theorem objMask_testBit5 (cfg : Config) (all : List String) (o : ObjFile)
    (n : String) :
    ((objMask cfg all o n).testBit 5 = true) ↔
      ((imppref ++ n) ∈ blockDefNames cfg all o.symtab ∧
        n ∈ blockDefNames cfg all o.symtab) := by
  rw [objMask, Nat.testBit_lor, rowsMask_testBit5, Bool.false_or, colocMask_eq]
  by_cases h : (imppref ++ n) ∈ blockDefNames cfg all o.symtab ∧
      n ∈ blockDefNames cfg all o.symtab
  · rw [if_pos h]
    constructor
    · intro _
      exact h
    · intro _
      decide
  · rw [if_neg h]
    constructor
    · intro hb
      exact absurd hb (by decide)
    · intro hc
      exact absurd hc h

theorem objsMask_testBit5 (cfg : Config) (all : List String) :
    ∀ (objs : List ObjFile) (n : String),
      ((objsMask cfg all objs n).testBit 5 = true) ↔
        ∃ o ∈ objs, (imppref ++ n) ∈ blockDefNames cfg all o.symtab ∧
          n ∈ blockDefNames cfg all o.symtab := by
  intro objs
  induction objs with
  | nil =>
    intro n
    simp [objsMask]
  | cons o os ih =>
    intro n
    rw [objsMask, Nat.testBit_lor, Bool.or_eq_true, objMask_testBit5, ih n]
    constructor
    · rintro (h | ⟨o', ho', h'⟩)
      · exact ⟨o, List.mem_cons_self _ _, h⟩
      · exact ⟨o', List.mem_cons_of_mem _ ho', h'⟩
    · rintro ⟨o', ho', h'⟩
      rcases List.mem_cons.mp ho' with rfl | ho''
      · exact Or.inl h'
      · exact Or.inr ⟨o', ho'', h'⟩

theorem mem_blockDefNames_iff (cfg : Config) (all : List String) :
    ∀ (rows : List SymRow) (m : String),
      m ∈ blockDefNames cfg all rows ↔
        ∃ r ∈ rows, r.name = m ∧ r.secidx ≠ 0 ∧
          isInterestingSym cfg all m = true := by
  intro rows
  induction rows with
  | nil =>
    intro m
    simp [blockDefNames]
  | cons r rs ih =>
    intro m
    rw [blockDefNames]
    by_cases hc : isInterestingSym cfg all r.name = true ∧ r.secidx ≠ 0
    · rw [if_pos hc]
      constructor
      · intro hm
        rcases List.mem_cons.mp hm with rfl | hm'
        · exact ⟨r, List.mem_cons_self _ _, rfl, hc.2, hc.1⟩
        · obtain ⟨r', hr', h'⟩ := (ih m).mp hm'
          exact ⟨r', List.mem_cons_of_mem _ hr', h'⟩
      · rintro ⟨r', hr', hn', hs', hi'⟩
        rcases List.mem_cons.mp hr' with rfl | hr''
        · rw [← hn']
          exact List.mem_cons_self _ _
        · exact List.mem_cons_of_mem _ ((ih m).mpr ⟨r', hr'', hn', hs', hi'⟩)
    · rw [if_neg hc]
      rw [ih]
      constructor
      · rintro ⟨r', hr', h'⟩
        exact ⟨r', List.mem_cons_of_mem _ hr', h'⟩
      · rintro ⟨r', hr', hn', hs', hi'⟩
        rcases List.mem_cons.mp hr' with rfl | hr''
        · rw [← hn'] at hi'
          exact absurd ⟨hi', hs'⟩ hc
        · exact ⟨r', hr'', hn', hs', hi'⟩

theorem imp_name_interesting (cfg : Config) (a : List String) (X : String) :
    isInterestingSym cfg a (imppref ++ X) = true := by
  unfold isInterestingSym
  rw [strStartsWith_imp5 (imppref ++ X) (strStartsWith_append imppref X)]
  rfl

theorem base_in_pipeline_all (cfg : Config) (objs : List ObjFile)
    (o : ObjFile) (r : SymRow) (X : String) (ho : o ∈ objs)
    (hr : r ∈ o.symtab) (hname : r.name = imppref ++ X) :
    X ∈ pass2 (pass1 cfg objs) := by
  have h1 : imppref ++ X ∈ pass1 cfg objs := by
    rw [mem_pass1_iff]
    refine ⟨o, ho, List.mem_map.mpr ⟨r, hr, hname⟩, ?_⟩
    unfold interestingSelf
    rw [strStartsWith_imp5 (imppref ++ X) (strStartsWith_append imppref X)]
    rfl
  have h2 := strip_mem_pass2 _ _ h1 (strStartsWith_append imppref X)
  rwa [stripImp_append] at h2

/-- C6 — In every complete run, the co-location (`dsameobj`, bit 5)
disposition flag of a base name `X` is set if and only if some single
input object's symbol table defines (nonzero section index) both `X` and
its import form `__imp_X`; definitions of the two forms in different
objects never set it. -/
theorem colocation_flag_iff (cfg : Config) (objs : List ObjFile) (s : State)
    (X : String) (h : runAll cfg objs = .ok s) :
    ((defrefGet s X).testBit 5 = true ↔
      ∃ o ∈ objs, (∃ r ∈ o.symtab, r.name = X ∧ r.secidx ≠ 0) ∧
        (∃ r ∈ o.symtab, r.name = imppref ++ X ∧ r.secidx ≠ 0)) := by
  unfold runAll at h
  have e := pass3objs_ok_defref cfg objs 0 _ s h X
  rw [e]
  show ((0 ||| objsMask cfg (pass2 (pass1 cfg objs)) objs X).testBit 5 = true ↔ _)
  rw [Nat.zero_or, objsMask_testBit5]
  constructor
  · rintro ⟨o, ho, h1, h2⟩
    rw [mem_blockDefNames_iff] at h1 h2
    obtain ⟨r1, hr1, hn1, hs1, _⟩ := h1
    obtain ⟨r2, hr2, hn2, hs2, _⟩ := h2
    exact ⟨o, ho, ⟨r2, hr2, hn2, hs2⟩, ⟨r1, hr1, hn1, hs1⟩⟩
  · rintro ⟨o, ho, ⟨r2, hr2, hn2, hs2⟩, ⟨r1, hr1, hn1, hs1⟩⟩
    refine ⟨o, ho, ?_, ?_⟩
    · rw [mem_blockDefNames_iff]
      exact ⟨r1, hr1, hn1, hs1, imp_name_interesting cfg _ X⟩
    · rw [mem_blockDefNames_iff]
      refine ⟨r2, hr2, hn2, hs2, ?_⟩
      have hx : X ∈ pass2 (pass1 cfg objs) :=
        base_in_pipeline_all cfg objs o r1 X ho hr1 hn1
      unfold isInterestingSym
      simp [hx]

/-- C6 witness — an object defining both `foo` and `__imp_foo` in its
symbol table sets the colocation flag in a complete run. -/
theorem colocation_flag_iff_witness :
    ∃ s, runAll ⟨false, []⟩ [⟨[⟨1, 0, "foo"⟩, ⟨1, 4, "__imp_foo"⟩], []⟩] = .ok s ∧
      (defrefGet s "foo").testBit 5 = true := by
  have hok : (runAll ⟨false, []⟩
      [⟨[⟨1, 0, "foo"⟩, ⟨1, 4, "__imp_foo"⟩], []⟩]).isOk = true := by decide
  cases h : runAll ⟨false, []⟩ [⟨[⟨1, 0, "foo"⟩, ⟨1, 4, "__imp_foo"⟩], []⟩] with
  | error e => rw [h] at hok; exact absurd hok (by simp [Except.isOk, Except.toBool])
  | ok s =>
    refine ⟨s, rfl, ?_⟩
    rw [colocation_flag_iff ⟨false, []⟩ _ s "foo" h]
    refine ⟨⟨[⟨1, 0, "foo"⟩, ⟨1, 4, "__imp_foo"⟩], []⟩, by simp, ?_, ?_⟩
    · exact ⟨⟨1, 0, "foo"⟩, by simp, rfl, by decide⟩
    · exact ⟨⟨1, 4, "__imp_foo"⟩, by simp, by decide, by decide⟩

/-! ## C8: reference lists are append-only and ordered by object index -/

theorem refsGet_congr (st st' : State) (h : st'.refs = st.refs) (n : String) :
    refsGet st' n = refsGet st n := by
  unfold refsGet
  rw [h]

theorem maskAddDef_refs (st : State) (m : String) :
    (maskAddDef st m).refs = st.refs := by
  unfold maskAddDef
  split <;> rfl

theorem maskAddRef_refs (st : State) (m : String) :
    (maskAddRef st m).refs = st.refs := by
  unfold maskAddRef
  split <;> rfl

theorem refsGet_maskAddDef (st : State) (m n : String) :
    refsGet (maskAddDef st m) n = refsGet st n :=
  refsGet_congr st _ (maskAddDef_refs st m) n

theorem refsGet_maskAddRef (st : State) (m n : String) :
    refsGet (maskAddRef st m) n = refsGet st n :=
  refsGet_congr st _ (maskAddRef_refs st m) n

theorem refsGet_defsUpdate (st : State) (ds : List (String × DefInfo))
    (n : String) : refsGet { st with defs := ds } n = refsGet st n := rfl

theorem refsGet_update_self (st : State) (m : String) (rl : List RefInfo) :
    refsGet { st with refs := mapSet st.refs m rl } m = rl := by
  show (mapGet (mapSet st.refs m rl) m).getD [] = rl
  rw [mapGet_mapSet_self]
  rfl

theorem refsGet_update_ne (st : State) (m n : String) (rl : List RefInfo)
    (h : m ≠ n) :
    refsGet { st with refs := mapSet st.refs m rl } n = refsGet st n := by
  show (mapGet (mapSet st.refs m rl) n).getD [] = _
  rw [mapGet_mapSet_ne _ _ _ _ h]
  rfl

theorem symtabRow_ok_refs_extend (cfg : Config) (cur : Nat) (st : State)
    (bd : List String) (r : SymRow) (st' : State) (bd' : List String)
    (h : symtabRow cfg cur st bd r = .ok (st', bd')) (n : String) :
    ∃ t, refsGet st' n = refsGet st n ++ t ∧ ∀ e ∈ t, e.objidx = cur := by
  simp only [symtabRow] at h
  split at h
  · simp only [Except.ok.injEq, Prod.mk.injEq] at h
    exact ⟨[], by rw [← h.1, List.append_nil], by simp⟩
  · split at h
    · split at h
      · simp at h
      · simp only [Except.ok.injEq, Prod.mk.injEq] at h
        by_cases hn : r.name = n
        · subst hn
          refine ⟨[⟨cur, r.secidx, [], true⟩], ?_, by simp⟩
          rw [← h.1, refsGet_update_self, refsGet_maskAddDef, refsGet_defsUpdate]
        · refine ⟨[], ?_, by simp⟩
          rw [← h.1, List.append_nil, refsGet_update_ne _ _ _ _ hn,
            refsGet_maskAddDef, refsGet_defsUpdate]
    · simp only [Except.ok.injEq, Prod.mk.injEq] at h
      by_cases hn : r.name = n
      · subst hn
        refine ⟨[⟨cur, r.secidx, [], false⟩], ?_, by simp⟩
        rw [← h.1, refsGet_maskAddRef, refsGet_update_self]
      · refine ⟨[], ?_, by simp⟩
        rw [← h.1, List.append_nil, refsGet_maskAddRef,
          refsGet_update_ne _ _ _ _ hn]

theorem symtabRows_ok_refs_extend (cfg : Config) (cur : Nat) :
    ∀ (rows : List SymRow) (st : State) (bd : List String) (st' : State)
      (bd' : List String),
      symtabRows cfg cur rows st bd = .ok (st', bd') → ∀ n,
      ∃ t, refsGet st' n = refsGet st n ++ t ∧ ∀ e ∈ t, e.objidx = cur := by
  intro rows
  induction rows with
  | nil =>
    intro st bd st' bd' h n
    simp only [symtabRows, Except.ok.injEq, Prod.mk.injEq] at h
    exact ⟨[], by rw [← h.1, List.append_nil], by simp⟩
  | cons r rs ih =>
    intro st bd st' bd' h n
    simp only [symtabRows] at h
    cases hr : symtabRow cfg cur st bd r with
    | error e => rw [hr] at h; simp at h
    | ok p =>
      rw [hr] at h
      obtain ⟨t1, ht1, ho1⟩ :=
        symtabRow_ok_refs_extend cfg cur st bd r p.1 p.2 (by rw [hr]) n
      obtain ⟨t2, ht2, ho2⟩ := ih p.1 p.2 st' bd' h n
      refine ⟨t1 ++ t2, ?_, ?_⟩
      · rw [ht2, ht1, List.append_assoc]
      · intro e he
        rcases List.mem_append.mp he with h1 | h2
        · exact ho1 e h1
        · exact ho2 e h2

theorem colocateGo_refs (bd : List String) :
    ∀ (l : List String) (st : State), (colocateGo bd l st).refs = st.refs := by
  intro l
  induction l with
  | nil => intro st; rfl
  | cons k ks ih =>
    intro st
    unfold colocateGo
    rw [ih]
    split
    · split <;> rfl
    · rfl

theorem readSymtab_ok_refs_extend (cfg : Config) (cur : Nat)
    (rows : List SymRow) (st st' : State)
    (h : readSymtab cfg cur rows st = .ok st') (n : String) :
    ∃ t, refsGet st' n = refsGet st n ++ t ∧ ∀ e ∈ t, e.objidx = cur := by
  simp only [readSymtab] at h
  cases hs : symtabRows cfg cur rows st [] with
  | error e => rw [hs] at h; simp at h
  | ok p =>
    rw [hs] at h
    simp only [Except.ok.injEq] at h
    obtain ⟨t, ht, ho⟩ := symtabRows_ok_refs_extend cfg cur rows st [] p.1 p.2 hs n
    refine ⟨t, ?_, ho⟩
    rw [← h, refsGet_congr p.1 _ (by rw [colocate, colocateGo_refs]) n, ht]

theorem walkRev_skel (cur off : Nat) :
    ∀ (l : List RefInfo), ((walkRev cur off l).1).map refSkel = l.map refSkel := by
  intro l
  induction l with
  | nil => rfl
  | cons ri rest ih =>
    by_cases hc : ri.objidx ≠ cur
    · rw [walkRev, if_pos hc]
    · rw [walkRev, if_neg hc]
      show (addOff off ri :: (walkRev cur off rest).1).map refSkel = _
      rw [List.map_cons, ih]
      rfl

theorem bindRelocation_skel (cur off : Nat) (rl rl' : List RefInfo)
    (h : bindRelocation cur off rl = some rl') :
    rl'.map refSkel = rl.map refSkel := by
  unfold bindRelocation at h
  split at h
  · simp only [Option.some.injEq] at h
    rw [← h, List.map_reverse, walkRev_skel cur off, List.map_reverse,
      List.reverse_reverse]
  · simp at h

theorem relocRow_ok_skel (cfg : Config) (cur : Nat) (st : State)
    (r : RelocRow) (st' : State) (h : relocRow cfg cur st r = .ok st')
    (n : String) :
    (refsGet st' n).map refSkel = (refsGet st n).map refSkel := by
  simp only [relocRow] at h
  split at h
  · simp only [Except.ok.injEq] at h
    rw [← h]
  · split at h
    · simp at h
    · rename_i rl hrl
      split at h
      · rename_i rl' hbind
        simp only [Except.ok.injEq] at h
        rw [← h]
        by_cases hn : r.sval = n
        · subst hn
          rw [refsGet_update_self, bindRelocation_skel _ _ _ _ hbind,
            show refsGet st r.sval = rl from by unfold refsGet; rw [hrl]; rfl]
        · rw [refsGet_update_ne _ _ _ _ hn]
      · simp at h

theorem relocRows_ok_skel (cfg : Config) (cur : Nat) :
    ∀ (rs : List RelocRow) (st st' : State),
      relocRows cfg cur rs st = .ok st' → ∀ n,
      (refsGet st' n).map refSkel = (refsGet st n).map refSkel := by
  intro rs
  induction rs with
  | nil =>
    intro st st' h n
    simp only [relocRows, Except.ok.injEq] at h
    rw [← h]
  | cons r rs' ih =>
    intro st st' h n
    simp only [relocRows] at h
    cases hr : relocRow cfg cur st r with
    | error e => rw [hr] at h; simp at h
    | ok st1 =>
      rw [hr] at h
      rw [ih st1 st' h n, relocRow_ok_skel cfg cur st r st1 hr n]

theorem relocBlocks_ok_skel (cfg : Config) (cur : Nat) :
    ∀ (bs : List (List RelocRow)) (st st' : State),
      relocBlocks cfg cur bs st = .ok st' → ∀ n,
      (refsGet st' n).map refSkel = (refsGet st n).map refSkel := by
  intro bs
  induction bs with
  | nil =>
    intro st st' h n
    simp only [relocBlocks, Except.ok.injEq] at h
    rw [← h]
  | cons b bs' ih =>
    intro st st' h n
    simp only [relocBlocks] at h
    cases hb : relocRows cfg cur b st with
    | error e => rw [hb] at h; simp at h
    | ok st1 =>
      rw [hb] at h
      rw [ih st1 st' h n, relocRows_ok_skel cfg cur b st st1 hb n]

theorem pass3obj_ok_refs_extend (cfg : Config) (cur : Nat) (o : ObjFile)
    (st st' : State) (h : pass3obj cfg cur o st = .ok st') (n : String) :
    ∃ u, (refsGet st' n).map refSkel = (refsGet st n).map refSkel ++ u ∧
      ∀ e ∈ u, e.1 = cur := by
  simp only [pass3obj] at h
  cases hs : readSymtab cfg cur o.symtab st with
  | error e => rw [hs] at h; simp at h
  | ok st1 =>
    rw [hs] at h
    obtain ⟨t, ht, ho⟩ := readSymtab_ok_refs_extend cfg cur o.symtab st st1 hs n
    refine ⟨t.map refSkel, ?_, ?_⟩
    · rw [relocBlocks_ok_skel cfg cur o.relocs st1 st' h n, ht, List.map_append]
    · intro e he
      obtain ⟨x, hx, rfl⟩ := List.mem_map.mp he
      exact ho x hx

theorem pass3obj_ok_objidx_extend (cfg : Config) (cur : Nat) (o : ObjFile)
    (st st' : State) (h : pass3obj cfg cur o st = .ok st') (n : String) :
    ∃ v, (refsGet st' n).map RefInfo.objidx =
        (refsGet st n).map RefInfo.objidx ++ v ∧ ∀ e ∈ v, e = cur := by
  obtain ⟨u, hu, huo⟩ := pass3obj_ok_refs_extend cfg cur o st st' h n
  have h1 : ∀ (l : List RefInfo),
      l.map RefInfo.objidx = (l.map refSkel).map Prod.fst := by
    intro l
    rw [List.map_map]
    exact List.map_congr_left (fun x _ => rfl)
  refine ⟨u.map Prod.fst, ?_, ?_⟩
  · rw [h1, hu, List.map_append, ← h1]
  · intro e he
    obtain ⟨x, hx, rfl⟩ := List.mem_map.mp he
    exact huo x hx

theorem chain'_const (k : Nat) :
    ∀ (v : List Nat), (∀ e ∈ v, e = k) → List.Chain' (· ≤ ·) v := by
  intro v
  induction v with
  | nil => intro _; exact List.chain'_nil
  | cons a t ih =>
    intro h
    cases t with
    | nil => exact List.chain'_singleton a
    | cons b t' =>
      refine List.chain'_cons.mpr
        ⟨?_, ih (fun e he => h e (List.mem_cons_of_mem _ he))⟩
      rw [h a (by simp), h b (by simp)]

theorem chain'_append_const (l v : List Nat) (k : Nat)
    (hl : List.Chain' (· ≤ ·) l) (hbound : ∀ i ∈ l, i ≤ k)
    (hv : ∀ e ∈ v, e = k) : List.Chain' (· ≤ ·) (l ++ v) := by
  refine List.chain'_append.mpr ⟨hl, chain'_const k v hv, ?_⟩
  intro x hx y hy
  have hxl : x ∈ l := by
    obtain ⟨hne, rfl⟩ := List.mem_getLast?_eq_getLast hx
    exact List.getLast_mem hne
  rw [hv y (List.mem_of_mem_head? hy)]
  exact hbound x hxl

theorem pass3objs_sorted (cfg : Config) :
    ∀ (objs : List ObjFile) (k : Nat) (st s : State),
      pass3objs cfg k objs st = .ok s →
      (∀ n, List.Chain' (· ≤ ·) ((refsGet st n).map RefInfo.objidx) ∧
        ∀ i ∈ (refsGet st n).map RefInfo.objidx, i < k) →
      ∀ n, List.Chain' (· ≤ ·) ((refsGet s n).map RefInfo.objidx) := by
  intro objs
  induction objs with
  | nil =>
    intro k st s h hinv n
    simp only [pass3objs, Except.ok.injEq] at h
    rw [← h]
    exact (hinv n).1
  | cons o os ih =>
    intro k st s h hinv n
    simp only [pass3objs] at h
    cases ho : pass3obj cfg k o st with
    | error e => rw [ho] at h; simp at h
    | ok st1 =>
      rw [ho] at h
      refine ih (k + 1) st1 s h ?_ n
      intro m
      obtain ⟨v, hv, hvo⟩ := pass3obj_ok_objidx_extend cfg k o st st1 ho m
      obtain ⟨hc, hb⟩ := hinv m
      constructor
      · rw [hv]
        exact chain'_append_const _ _ k hc
          (fun i hi => Nat.le_of_lt (hb i hi)) hvo
      · rw [hv]
        intro i hi
        rcases List.mem_append.mp hi with hil | hiv
        · exact Nat.lt_succ_of_lt (hb i hil)
        · rw [hvo i hiv]
          exact Nat.lt_succ_self k

/-- C8 — Reference lists are append-only and ordered by object processing
order: in every complete run the sequence of owning-object indices along
any symbol's Reference list is non-decreasing, and processing one object
only extends each Reference list at its tail — the identity part
(object index, section index, is-definition flag) of the existing entries
is preserved as a prefix, never removed or reordered (relocation binding
only appends offsets to existing entries). -/
theorem refs_append_only_ordered :
    (∀ (cfg : Config) (objs : List ObjFile) (s : State),
      runAll cfg objs = .ok s →
      ∀ n, List.Chain' (· ≤ ·) ((refsGet s n).map RefInfo.objidx)) ∧
    (∀ (cfg : Config) (cur : Nat) (o : ObjFile) (st st' : State),
      pass3obj cfg cur o st = .ok st' →
      ∀ n, ∃ u, (refsGet st' n).map refSkel = (refsGet st n).map refSkel ++ u) := by
  constructor
  · intro cfg objs s h n
    refine pass3objs_sorted cfg objs 0 _ s h ?_ n
    intro m
    constructor
    · show List.Chain' (· ≤ ·) (([] : List RefInfo).map RefInfo.objidx)
      exact List.chain'_nil
    · show ∀ i ∈ ([] : List Nat), i < 0
      intro i hi
      cases hi
  · intro cfg cur o st st' h n
    obtain ⟨u, hu, _⟩ := pass3obj_ok_refs_extend cfg cur o st st' h n
    exact ⟨u, hu⟩

/-- C8 witness — two objects each carrying a reference row for `__imp_a`:
the run completes and the owning-object indices along the Reference list
of `__imp_a` are non-decreasing. -/
theorem refs_append_only_ordered_witness :
    ∃ s, runAll ⟨false, []⟩
        [⟨[⟨0, 0, "__imp_a"⟩], []⟩, ⟨[⟨0, 0, "__imp_a"⟩], []⟩] = .ok s ∧
      List.Chain' (· ≤ ·) ((refsGet s "__imp_a").map RefInfo.objidx) := by
  have hok : (runAll ⟨false, []⟩
      [⟨[⟨0, 0, "__imp_a"⟩], []⟩, ⟨[⟨0, 0, "__imp_a"⟩], []⟩]).isOk = true := by
    decide
  cases h : runAll ⟨false, []⟩
      [⟨[⟨0, 0, "__imp_a"⟩], []⟩, ⟨[⟨0, 0, "__imp_a"⟩], []⟩] with
  | error e =>
    rw [h] at hok
    exact absurd hok (by simp [Except.isOk, Except.toBool])
  | ok s =>
    exact ⟨s, rfl, refs_append_only_ordered.1 ⟨false, []⟩
      [⟨[⟨0, 0, "__imp_a"⟩], []⟩, ⟨[⟨0, 0, "__imp_a"⟩], []⟩] s h "__imp_a"⟩
